import Mathlib

/-!
# Verification of the vectcode indexing and metadata subsystem

A shallow embedding, in Lean 4, of the core of the `vectcode` repository:
the Go structural extractor (`pkg/parser/go.go`), the chunk model
(`pkg/chunker/chunker.go`), the SQLite metadata tracker
(`pkg/metadata/sqlite.go`), and the indexing orchestrator
(`pkg/indexer/indexer.go` together with the `index` CLI command).

Each embedded definition mirrors the corresponding Go function; the Go
standard-library pieces the code relies on (`filepath.Walk`, `ast.Inspect`,
SQLite row semantics) are modelled explicitly.  Theorems at the end of the
file settle the specification claims against these definitions.
-/

namespace VectCode

/-! ## Chunk model (`pkg/chunker/chunker.go`)

`ChunkType` is a string in Go (`type ChunkType string`); we keep it as a
`String` with the same constants. -/

def chunkTypeFunction : String := "function"

def chunkTypeMethod : String := "method"

def chunkTypeStruct : String := "struct"

def chunkTypeInterface : String := "interface"

/-- `chunker.CodeChunk`.  Timestamps are modelled as integers
(`time.Time` values are only carried around, never inspected).
Fields the extractor never sets (`GRPCMethods`, `Comments`) are omitted. -/
structure CodeChunk where
  ID : String
  Project : String
  FilePath : String
  Package : String
  Language : String
  Code : String
  ChunkType : String
  Name : String
  Receiver : String
  HTTPEndpoints : List String
  HTTPCalls : List String
  Imports : List String
  DocString : String
  LineStart : Nat
  LineEnd : Nat
  LastModified : Int
deriving DecidableEq, Repr

/-- `chunker.joinStrings`: comma-space separated concatenation. -/
def joinStrings (strs : List String) : String :=
  match strs with
  | [] => ""
  | s :: rest => rest.foldl (fun acc t => acc ++ ", " ++ t) s

/-- `chunker.CodeChunk.ToText`: the text projection sent to the embedder. -/
def ToText (c : CodeChunk) : String :=
  let text := ""
  let text := if c.DocString != "" then text ++ c.DocString ++ "\n\n" else text
  let text := text ++ "Project: " ++ c.Project ++ "\n"
  let text := text ++ "Package: " ++ c.Package ++ "\n"
  let text := text ++ "Type: " ++ c.ChunkType ++ "\n"
  let text := if c.Name != "" then text ++ "Name: " ++ c.Name ++ "\n" else text
  let text := if c.HTTPEndpoints.length > 0 then
    text ++ "HTTP Endpoints: " ++ joinStrings c.HTTPEndpoints ++ "\n" else text
  let text := if c.Imports.length > 0 then
    text ++ "Imports: " ++ joinStrings c.Imports ++ "\n" else text
  text ++ "\nCode:\n" ++ c.Code

/-! ## Go syntax-tree model

The extractor works on `go/ast` trees.  We model the fragment it inspects:
a file is a package name, the import literal values, and a list of
top-level declarations.  A function body is represented by the sequence of
its nodes in `ast.Inspect` preorder; the only nodes the extractor reacts
to inside a body are call expressions (whose function is a selector and
whose first argument may be a string literal) and nested `GenDecl`
type declarations. -/

inductive LitKind where
  | stringLit
  | otherLit
deriving DecidableEq, Repr

/-- An argument of a call expression: either a `BasicLit` with its literal
token text (quotes included, as `lit.Value` in Go), or any other
expression. -/
inductive GoArg where
  | lit (kind : LitKind) (value : String)
  | nonLit
deriving DecidableEq, Repr

inductive TypeKind where
  | structKind
  | interfaceKind
  | otherKind
deriving DecidableEq, Repr

/-- An `ast.TypeSpec`: the declared name, what its type expression is
(`StructType`, `InterfaceType`, anything else), and its source positions. -/
structure GoTypeSpec where
  name : String
  kind : TypeKind
  lineStart : Nat
  lineEnd : Nat
deriving DecidableEq, Repr

inductive DeclTok where
  | typeTok
  | varTok
  | constTok
  | importTok
deriving DecidableEq, Repr

/-- An `ast.GenDecl`: its keyword token, attached doc comment text
(`Doc.Text()`), its type specs (meaningful when `tok = typeTok`), and the
`go/printer` rendering of the whole declaration. -/
structure GoGenDecl where
  tok : DeclTok
  doc : Option String
  specs : List GoTypeSpec
  src : String
deriving DecidableEq, Repr

/-- One node of a function body in `ast.Inspect` preorder.  `callSel s a`
is a `CallExpr` whose `Fun` is a `SelectorExpr` with selector name `s` and
arguments `a`; `callOther` is any other `CallExpr`; `typeDecl` is a
`GenDecl` nested in the body (Go allows `type T struct{}` inside a
function); `otherNode` is any further node. -/
inductive BodyNode where
  | callSel (selName : String) (args : List GoArg)
  | callOther (args : List GoArg)
  | typeDecl (d : GoGenDecl)
  | otherNode
deriving DecidableEq, Repr

/-- An `ast.FuncDecl`.  `recv` is `some r` when the declaration has a
receiver (`fn.Recv != nil` with a nonempty field list), `r` being the
`go/printer` rendering of the receiver type; `doc` is the doc comment
text; `body` is `none` when `fn.Body == nil`; `src` is the printed
declaration. -/
structure GoFuncDecl where
  name : String
  recv : Option String
  doc : Option String
  body : Option (List BodyNode)
  src : String
  lineStart : Nat
  lineEnd : Nat
deriving DecidableEq, Repr

inductive GoDecl where
  | funcDecl (f : GoFuncDecl)
  | genDecl (d : GoGenDecl)
deriving DecidableEq, Repr

/-- An `ast.File`: package name, the `Path.Value` literal of every import
spec (quotes included), and the top-level declarations. -/
structure GoFile where
  packageName : String
  imports : List String
  decls : List GoDecl
deriving DecidableEq, Repr

/-! ## The Go parser (`pkg/parser/go.go`) -/

/-- `generateID`: `fmt.Sprintf("%s:%s:%s", projectName, filePath, name)`. -/
def generateID (projectName filePath name : String) : String :=
  projectName ++ ":" ++ filePath ++ ":" ++ name

/-- `strings.Trim(s, "\"")`: remove every leading and trailing
double-quote character. -/
def trimQuotes (s : String) : String :=
  String.mk (((s.data.dropWhile (· == '"')).reverse.dropWhile (· == '"')).reverse)

/-- `isHTTPMethod`: membership in the fixed list of verb tokens. -/
def isHTTPMethod (s : String) : Bool :=
  ["GET", "POST", "PUT", "DELETE", "PATCH", "HEAD", "OPTIONS",
   "Get", "Post", "Put", "Delete", "Patch", "Head", "Options"].any (fun m => s == m)

/-- `extractHTTPEndpoints`: scan the body nodes in `ast.Inspect` order and
record `"VERB path"` for every call through a selector whose name is an
HTTP verb token and whose first argument is a string literal. -/
def extractHTTPEndpoints : List BodyNode → List String
  | [] => []
  | n :: rest =>
    (match n with
     | .callSel sel (.lit .stringLit v :: _) =>
       if isHTTPMethod sel then [sel ++ " " ++ trimQuotes v] else []
     | _ => []) ++ extractHTTPEndpoints rest

/-- `extractHTTPCalls`: scan the body nodes and record the bare trimmed
first-argument string for every call through a selector named `Get`,
`Post`, `Put`, `Delete` or `Patch` whose first argument is a string
literal.  Note: the recorded string is the URL alone, with no verb. -/
def extractHTTPCalls : List BodyNode → List String
  | [] => []
  | n :: rest =>
    (match n with
     | .callSel sel (.lit .stringLit v :: _) =>
       if sel == "Get" || sel == "Post" || sel == "Put" || sel == "Delete" || sel == "Patch"
       then [trimQuotes v] else []
     | _ => []) ++ extractHTTPCalls rest

/-- `extractImports`: trim the surrounding quotes of each import path
literal. -/
def extractImports (f : GoFile) : List String :=
  f.imports.map trimQuotes

/-- `extractFunction`: build the chunk for a function or method
declaration.  Kind is `method` with the printed receiver type exactly
when the declaration has a receiver; HTTP endpoint/call detection runs
only when the body is present. -/
def extractFunction (fn : GoFuncDecl) (filePath projectName packageName : String)
    (imports : List String) (modTime : Int) : CodeChunk :=
  { ID := generateID projectName filePath fn.name
    Project := projectName
    FilePath := filePath
    Package := packageName
    Language := "go"
    Code := fn.src
    Name := fn.name
    Receiver := match fn.recv with | some r => r | none => ""
    ChunkType := match fn.recv with | some _ => chunkTypeMethod | none => chunkTypeFunction
    DocString := match fn.doc with | some d => d | none => ""
    HTTPEndpoints := match fn.body with | some b => extractHTTPEndpoints b | none => []
    HTTPCalls := match fn.body with | some b => extractHTTPCalls b | none => []
    Imports := imports
    LineStart := fn.lineStart
    LineEnd := fn.lineEnd
    LastModified := modTime }

/-- `extractType`: build the chunk for one type spec of a `GenDecl`;
`none` when the spec is neither a struct nor an interface type. -/
def extractType (g : GoGenDecl) (ts : GoTypeSpec)
    (filePath projectName packageName : String) (modTime : Int) : Option CodeChunk :=
  match ts.kind with
  | .otherKind => none
  | k =>
    some
      { ID := generateID projectName filePath ts.name
        Project := projectName
        FilePath := filePath
        Package := packageName
        Language := "go"
        Code := g.src
        Name := ts.name
        Receiver := ""
        ChunkType := match k with
          | .structKind => chunkTypeStruct
          | _ => chunkTypeInterface
        DocString := match g.doc with | some d => d | none => ""
        HTTPEndpoints := []
        HTTPCalls := []
        Imports := []
        LineStart := ts.lineStart
        LineEnd := ts.lineEnd
        LastModified := modTime }

/-- The chunks contributed by one `GenDecl` node when `ast.Inspect`
reaches it: one per struct/interface type spec when the token is `type`,
nothing otherwise. -/
def typeChunksOfGenDecl (g : GoGenDecl)
    (filePath projectName packageName : String) (modTime : Int) : List CodeChunk :=
  if g.tok == .typeTok then
    g.specs.filterMap (fun ts => extractType g ts filePath projectName packageName modTime)
  else []

/-- The chunks contributed by one top-level declaration and everything
`ast.Inspect` visits below it.  A `FuncDecl` first yields its own chunk,
then the inspection descends into its body, where any nested type
`GenDecl` also matches the `GenDecl` case of the switch. -/
def inspectDecl (d : GoDecl)
    (filePath projectName packageName : String) (imports : List String) (modTime : Int) :
    List CodeChunk :=
  match d with
  | .funcDecl fn =>
    extractFunction fn filePath projectName packageName imports modTime ::
      (match fn.body with
       | some b =>
         b.flatMap (fun n =>
           match n with
           | .typeDecl g => typeChunksOfGenDecl g filePath projectName packageName modTime
           | _ => [])
       | none => [])
  | .genDecl g => typeChunksOfGenDecl g filePath projectName packageName modTime

/-- `parseFile`: `ast.Inspect` over the whole file, collecting chunks in
visitation order. -/
def parseFile (f : GoFile) (filePath projectName : String) (modTime : Int) :
    List CodeChunk :=
  let imports := extractImports f
  f.decls.flatMap
    (fun d => inspectDecl d filePath projectName f.packageName imports modTime)

/-! ## The project-tree walk (`GoParser.Parse` over `filepath.Walk`)

A project tree is a tree of named entries.  A file entry carries
`some (ast, modTime)` when `parser.ParseFile` and `os.Stat` would succeed
on it and `none` when parsing (or stat) fails; a directory entry carries
`readable = false` when reading its entry list would fail, which
`filepath.Walk` reports to the callback as a non-nil `err`.

`Parse` returns the collected chunks together with the list of file paths
for which a parse-failure warning was printed; a traversal error aborts
the whole walk with that error. -/

inductive FSEntry where
  | file (name : String) (parsed : Option (GoFile × Int))
  | dir (name : String) (readable : Bool) (entries : List FSEntry)
deriving Repr

def FSEntry.name : FSEntry → String
  | .file n _ => n
  | .dir n _ _ => n

/-- `filepath.Join` of a parent path and an entry name. -/
def pathJoin (parent name : String) : String :=
  parent ++ "/" ++ name

/-- `strings.HasPrefix`, on the character list of the string. -/
def strStartsWith (s pre : String) : Bool :=
  s.data.take pre.data.length == pre.data

/-- `strings.HasSuffix`, on the character list of the string. -/
def strEndsWith (s suff : String) : Bool :=
  suff.data.isSuffixOf s.data

/-- The directory-skip test of the walk callback: `vendor`,
`node_modules`, and hidden names (longer than one character and starting
with a dot, so that `.` and `..` are kept). -/
def skipDirName (name : String) : Bool :=
  name == "vendor" || name == "node_modules" ||
    (decide (name.data.length > 1) && strStartsWith name ".")

mutual

/-- One step of `filepath.Walk` as driven by the callback in
`GoParser.Parse`: visiting the entry at `path`.  `filepath.Walk` reads a
directory before invoking the callback once for it, handing any read
error to the callback as its non-nil `err`; the callback returns that
error first (`if err != nil`), so an unreadable directory aborts the
walk whatever its name.  Only a readable directory reaches the skip
test (`filepath.SkipDir` for `vendor`/`node_modules`/hidden names) and,
surviving that, has its entries walked.  Files are parsed only when
their path ends in `.go`, and a file that fails to parse only
contributes a warning. -/
def walkEntry (path projectName : String) (e : FSEntry) :
    Except String (List CodeChunk × List String) :=
  match e with
  | .file _ parsed =>
    if strEndsWith path ".go" then
      match parsed with
      | some (gf, mt) => .ok (parseFile gf path projectName mt, [])
      | none => .ok ([], [path])
    else .ok ([], [])
  | .dir nm readable entries =>
    if !readable then .error path
    else if skipDirName nm then .ok ([], [])
    else walkList path projectName entries

/-- Walk the children of a directory at `path` in order, concatenating
chunks and warnings; the first error aborts. -/
def walkList (path projectName : String) (es : List FSEntry) :
    Except String (List CodeChunk × List String) :=
  match es with
  | [] => .ok ([], [])
  | e :: rest =>
    match walkEntry (pathJoin path e.name) projectName e with
    | .error er => .error er
    | .ok (cs, ws) =>
      match walkList path projectName rest with
      | .error er => .error er
      | .ok (cs2, ws2) => .ok (cs ++ cs2, ws ++ ws2)

end

/-- `GoParser.Parse`: walk the project tree rooted at
`pathJoin parentDir root.name` (so that the root's `info.Name()` is
`root.name`, as `filepath.Walk` reports it) and wrap a traversal error. -/
def ParseGo (parentDir projectName : String) (root : FSEntry) :
    Except String (List CodeChunk × List String) :=
  match walkEntry (pathJoin parentDir root.name) projectName root with
  | .error e => .error ("failed to walk project directory: " ++ e)
  | .ok r => .ok r

/-! ## Metadata tracker (`pkg/metadata/sqlite.go` over the schema of
`pkg/metadata/metadata.go`)

The three tables are lists of rows; `AUTOINCREMENT` counters are carried
in the state.  `TIMESTAMP` values are integers, `NULL`able columns are
`Option`s.  Foreign keys are enforced (the store opens the database with
`PRAGMA foreign_keys = ON`): `projects.group_id` is `ON DELETE SET NULL`,
`files.project_id` is `ON DELETE CASCADE`. -/

structure GroupRow where
  id : Int
  name : String
  description : String
  createdAt : Int
  updatedAt : Int
deriving DecidableEq, Repr

structure ProjectRow where
  id : Int
  name : String
  path : String
  language : String
  description : String
  groupId : Option Int
  chunkCount : Int
  lastIndexedAt : Option Int
  lastModifiedAt : Option Int
  createdAt : Int
  updatedAt : Int
deriving DecidableEq, Repr

structure FileRow where
  id : Int
  projectId : Int
  filePath : String
  lastModifiedAt : Option Int
  lastIndexedAt : Option Int
  chunkCount : Int
  fileHash : String
deriving DecidableEq, Repr

structure MetaDB where
  groups : List GroupRow
  projects : List ProjectRow
  files : List FileRow
  nextGroupId : Int
  nextProjectId : Int
  nextFileId : Int
deriving DecidableEq, Repr

/-- The error outcomes the store surfaces: the `rowsAffected == 0` paths
(`"... not found"`), `UNIQUE`-constraint failures, and foreign-key
failures. -/
inductive MetaErr where
  | notFound
  | conflict
  | fkViolation
deriving DecidableEq, Repr

/-- The arguments of `CreateProject`/`UpdateProject` (`metadata.Project`
restricted to the columns those statements bind). -/
structure ProjectArg where
  name : String
  path : String
  language : String
  description : String
  groupId : Option Int
  chunkCount : Int
  lastIndexedAt : Option Int
  lastModifiedAt : Option Int
deriving DecidableEq, Repr

/-- The arguments of `UpsertFile` (`metadata.File` restricted to the
columns the statement binds). -/
structure FileArg where
  projectId : Int
  filePath : String
  lastModifiedAt : Option Int
  lastIndexedAt : Option Int
  chunkCount : Int
  fileHash : String
deriving DecidableEq, Repr

/-- `CreateGroup`: `INSERT INTO groups (name, description)`; the `UNIQUE`
constraint on `groups.name` rejects an existing name. -/
def createGroup (db : MetaDB) (name description : String) (now : Int) :
    Except MetaErr (MetaDB × GroupRow) :=
  if db.groups.any (fun g => g.name == name) then .error .conflict
  else
    let g : GroupRow :=
      { id := db.nextGroupId, name := name, description := description,
        createdAt := now, updatedAt := now }
    .ok ({ db with groups := db.groups ++ [g], nextGroupId := db.nextGroupId + 1 }, g)

/-- `GetGroup`: lookup by name, `ErrNoRows` becomes a not-found error. -/
def getGroup (db : MetaDB) (name : String) : Except MetaErr GroupRow :=
  match db.groups.find? (fun g => g.name == name) with
  | some g => .ok g
  | none => .error .notFound

/-- Does `p.groupId` reference a group that `DELETE FROM groups WHERE
name = ?` removes? -/
def groupRefDeleted (db : MetaDB) (name : String) (p : ProjectRow) : Bool :=
  match p.groupId with
  | some gid => db.groups.any (fun g => g.name == name && g.id == gid)
  | none => false

/-- `DeleteGroup`: `DELETE FROM groups WHERE name = ?`; with foreign keys
on, `projects.group_id ... ON DELETE SET NULL` clears the reference of
every member project; `rowsAffected == 0` is the not-found error. -/
def deleteGroup (db : MetaDB) (name : String) : Except MetaErr MetaDB :=
  if db.groups.any (fun g => g.name == name) then
    .ok { db with
      groups := db.groups.filter (fun g => !(g.name == name)),
      projects := db.projects.map (fun p =>
        if groupRefDeleted db name p then { p with groupId := none } else p) }
  else .error .notFound

/-- `CreateProject`: `INSERT INTO projects ...`; `UNIQUE` on
`projects.name`, foreign key on `group_id`. -/
def createProject (db : MetaDB) (a : ProjectArg) (now : Int) :
    Except MetaErr (MetaDB × Int) :=
  if db.projects.any (fun p => p.name == a.name) then .error .conflict
  else if (match a.groupId with
           | some gid => !(db.groups.any (fun g => g.id == gid))
           | none => false) then .error .fkViolation
  else
    let p : ProjectRow :=
      { id := db.nextProjectId, name := a.name, path := a.path,
        language := a.language, description := a.description,
        groupId := a.groupId, chunkCount := a.chunkCount,
        lastIndexedAt := a.lastIndexedAt, lastModifiedAt := a.lastModifiedAt,
        createdAt := now, updatedAt := now }
    .ok ({ db with
            projects := db.projects ++ [p],
            nextProjectId := db.nextProjectId + 1 }, p.id)

/-- `GetProject` restricted to existence (the join with `groups` only
fills the display name). -/
def getProject (db : MetaDB) (name : String) : Except MetaErr ProjectRow :=
  match db.projects.find? (fun p => p.name == name) with
  | some p => .ok p
  | none => .error .notFound

/-- `UpdateProject`: `UPDATE projects SET ... WHERE name = ?`;
`rowsAffected == 0` is the not-found error, and an invalid `group_id`
fails the foreign key when a row is actually updated. -/
def updateProject (db : MetaDB) (a : ProjectArg) (now : Int) :
    Except MetaErr MetaDB :=
  if db.projects.any (fun p => p.name == a.name) then
    if (match a.groupId with
        | some gid => !(db.groups.any (fun g => g.id == gid))
        | none => false) then .error .fkViolation
    else
      .ok { db with projects := db.projects.map (fun p =>
        if p.name == a.name then
          { p with
            path := a.path, language := a.language,
            description := a.description, groupId := a.groupId,
            chunkCount := a.chunkCount, lastIndexedAt := a.lastIndexedAt,
            lastModifiedAt := a.lastModifiedAt, updatedAt := now }
        else p) }
  else .error .notFound

/-- `DeleteProject`: `DELETE FROM projects WHERE name = ?`; the cascade
removes every file row of a deleted project; `rowsAffected == 0` is the
not-found error. -/
def deleteProject (db : MetaDB) (name : String) : Except MetaErr MetaDB :=
  if db.projects.any (fun p => p.name == name) then
    .ok { db with
      projects := db.projects.filter (fun p => !(p.name == name)),
      files := db.files.filter (fun f =>
        !(db.projects.any (fun p => p.name == name && p.id == f.projectId))) }
  else .error .notFound

/-- Does a stored file row match the `(project_id, file_path)` key of the
upsert argument? -/
def fileKeyMatches (f : FileArg) (r : FileRow) : Bool :=
  r.projectId == f.projectId && r.filePath == f.filePath

/-- The `DO UPDATE SET` clause of `UpsertFile`: overwrite the four data
columns of the conflicting row (its `id` and key are kept). -/
def updRow (f : FileArg) (r : FileRow) : FileRow :=
  { r with
    lastModifiedAt := f.lastModifiedAt, lastIndexedAt := f.lastIndexedAt,
    chunkCount := f.chunkCount, fileHash := f.fileHash }

/-- The conflict arm of `UpsertFile`: update every key-matching row in
place. -/
def updFiles (f : FileArg) (db : MetaDB) : MetaDB :=
  { db with files := db.files.map (fun r =>
      if fileKeyMatches f r then updRow f r else r) }

/-- The insert arm of `UpsertFile`: append a fresh row under the next
`AUTOINCREMENT` id. -/
def insFile (f : FileArg) (db : MetaDB) : MetaDB :=
  { db with
    files := db.files ++
      [{ id := db.nextFileId, projectId := f.projectId,
         filePath := f.filePath, lastModifiedAt := f.lastModifiedAt,
         lastIndexedAt := f.lastIndexedAt, chunkCount := f.chunkCount,
         fileHash := f.fileHash }],
    nextFileId := db.nextFileId + 1 }

/-- `UpsertFile`: `INSERT ... ON CONFLICT(project_id, file_path) DO
UPDATE SET last_modified_at, last_indexed_at, chunk_count, file_hash`.
On conflict the existing row is updated in place; otherwise a fresh row
is inserted, subject to the `files.project_id` foreign key. -/
def upsertFile (db : MetaDB) (f : FileArg) : Except MetaErr MetaDB :=
  if db.files.any (fileKeyMatches f) then .ok (updFiles f db)
  else if db.projects.any (fun p => p.id == f.projectId) then .ok (insFile f db)
  else .error .fkViolation

/-- The row filter of `GetStaleFiles`:
`last_indexed_at IS NULL OR last_modified_at > last_indexed_at`, with
SQL three-valued logic (a `NULL` comparison selects nothing). -/
def isStaleRow (r : FileRow) : Bool :=
  r.lastIndexedAt.isNone ||
    (match r.lastModifiedAt, r.lastIndexedAt with
     | some m, some i => decide (m > i)
     | _, _ => false)

/-- `GetStaleFiles`: the project's rows passing the staleness filter,
`ORDER BY file_path`. -/
def getStaleFiles (db : MetaDB) (projectId : Int) : List FileRow :=
  (db.files.filter (fun r => r.projectId == projectId && isStaleRow r)).mergeSort
    (fun a b => decide (a.filePath ≤ b.filePath))

/-! ## Indexing orchestrator (`pkg/indexer/indexer.go` and the `index`
command of `cmd/codegraph/main.go`)

The embedding service and the vector store are external collaborators;
one run sees them as oracles: the parse outcome for the given project
path, the batch-embedding outcome for a given list of texts, and the
batched-insert outcome for a given list of chunks.  `IndexProject`
returns Go's `(int, error)` pair as `Nat × Option String`. -/

structure RunEnv where
  parseResult : Except String (List CodeChunk)
  embed : List String → Except String Unit
  insert : List CodeChunk → Except String Unit

/-- `Indexer.generateEmbeddings`: embed the `ToText` projection of every
chunk in one batched call. -/
def generateEmbeddings (env : RunEnv) (chunks : List CodeChunk) : Except String Unit :=
  env.embed (chunks.map ToText)

/-- `Indexer.IndexProject`: parse, fail on zero chunks, embed, insert;
each failure aborts with a wrapped error and count `0`. -/
def IndexProject (env : RunEnv) : Nat × Option String :=
  match env.parseResult with
  | .error e => (0, some ("failed to parse project: " ++ e))
  | .ok chunks =>
    if chunks.length == 0 then (0, some "no code chunks found in project")
    else
      match generateEmbeddings env chunks with
      | .error e => (0, some ("failed to generate embeddings: " ++ e))
      | .ok _ =>
        match env.insert chunks with
        | .error e => (0, some ("failed to store chunks: " ++ e))
        | .ok _ => (chunks.length, none)

structure IndexArgs where
  projectPath : String
  projectName : String
  groupName : String
  description : String
  clean : Bool

/-- The `--clean` metadata deletion: `metaStore.DeleteProject` with the
error (project may not exist) ignored. -/
def cleanMeta (db : MetaDB) (name : String) : MetaDB :=
  match deleteProject db name with
  | .ok d => d
  | .error _ => db

/-- The `index` CLI command, from loading of flags to the metadata
reconciliation, acting on the metadata state.  With `--clean` the
project's metadata rows are deleted up front (errors ignored, as in the
code, which also ignores the vector-store deletion error).  Then
`IndexProject` runs; on failure the command returns its error with the
metadata otherwise untouched.  On success the group is fetched or
created, and the project row is updated when it exists, created
otherwise, with the chunk count and `LastIndexedAt := now`
(`LastModifiedAt` is never set by the command). -/
def indexCmd (env : RunEnv) (args : IndexArgs) (now : Int) (db : MetaDB) :
    MetaDB × Option String :=
  let db := if args.clean then cleanMeta db args.projectName else db
  match IndexProject env with
  | (_, some e) => (db, some ("indexing failed: " ++ e))
  | (chunkCount, none) =>
    let groupStep : Except MetaErr (MetaDB × Option Int) :=
      if args.groupName != "" then
        match getGroup db args.groupName with
        | .ok g => .ok (db, some g.id)
        | .error _ =>
          match createGroup db args.groupName "" now with
          | .ok (db2, g) => .ok (db2, some g.id)
          | .error e => .error e
      else .ok (db, none)
    match groupStep with
    | .error _ => (db, some "failed to create group")
    | .ok (db2, gid) =>
      let proj : ProjectArg :=
        { name := args.projectName, path := args.projectPath, language := "go",
          description := args.description, groupId := gid,
          chunkCount := Int.ofNat chunkCount, lastIndexedAt := some now,
          lastModifiedAt := none }
      match getProject db2 args.projectName with
      | .ok _ =>
        match updateProject db2 proj now with
        | .ok db3 => (db3, none)
        | .error _ => (db2, some "failed to update project metadata")
      | .error _ =>
        match createProject db2 proj now with
        | .ok (db3, _) => (db3, none)
        | .error _ => (db2, some "failed to create project metadata")

/-! ## Helper lemmas about the extractor -/

theorem extractType_fields (g : GoGenDecl) (ts : GoTypeSpec)
    (fp pn pkg : String) (mt : Int) (c : CodeChunk)
    (h : extractType g ts fp pn pkg mt = some c) :
    c.ID = generateID pn fp ts.name ∧ c.Name = ts.name ∧
      c.Project = pn ∧ c.FilePath = fp := by
  obtain ⟨nm, k, ls, le⟩ := ts
  cases k <;> simp [extractType] at h <;> subst h <;> simp

theorem mem_typeChunksOfGenDecl (g : GoGenDecl) (fp pn pkg : String) (mt : Int)
    (c : CodeChunk) (h : c ∈ typeChunksOfGenDecl g fp pn pkg mt) :
    ∃ ts ∈ g.specs, extractType g ts fp pn pkg mt = some c := by
  unfold typeChunksOfGenDecl at h
  split at h
  · exact List.mem_filterMap.1 h
  · simp at h

theorem mem_parseFile (f : GoFile) (fp pn : String) (mt : Int) (c : CodeChunk)
    (hc : c ∈ parseFile f fp pn mt) :
    (∃ fn, GoDecl.funcDecl fn ∈ f.decls ∧
        c = extractFunction fn fp pn f.packageName (extractImports f) mt) ∨
      (∃ g ts, ts ∈ g.specs ∧ extractType g ts fp pn f.packageName mt = some c) := by
  unfold parseFile at hc
  simp only [List.mem_flatMap] at hc
  obtain ⟨d, hd, hcd⟩ := hc
  cases d with
  | funcDecl fn =>
    simp only [inspectDecl, List.mem_cons] at hcd
    rcases hcd with rfl | hmem
    · exact .inl ⟨fn, hd, rfl⟩
    · rcases hb : fn.body with _ | b
      · rw [hb] at hmem; simp at hmem
      · rw [hb] at hmem
        simp only [List.mem_flatMap] at hmem
        obtain ⟨n, _, hn⟩ := hmem
        cases n with
        | typeDecl g =>
          obtain ⟨ts, hts, hext⟩ := mem_typeChunksOfGenDecl g fp pn f.packageName mt c hn
          exact .inr ⟨g, ts, hts, hext⟩
        | callSel s a => simp at hn
        | callOther a => simp at hn
        | otherNode => simp at hn
  | genDecl g =>
    obtain ⟨ts, hts, hext⟩ :=
      mem_typeChunksOfGenDecl g fp pn f.packageName mt c hcd
    exact .inr ⟨g, ts, hts, hext⟩

/-! ## C1: chunk identity -/

/-- C1: every chunk the extractor emits from a file has
`id = "<project>:<file_path>:<name>"` (together with matching `Project`
and `FilePath` fields), and `generateID` is exactly that concatenation,
hence a pure function of the triple. -/
theorem chunk_id_is_project_file_name (f : GoFile) (fp pn : String) (mt : Int)
    (c : CodeChunk) (hc : c ∈ parseFile f fp pn mt) :
    c.ID = pn ++ ":" ++ fp ++ ":" ++ c.Name ∧ c.Project = pn ∧ c.FilePath = fp ∧
      (∀ p q n : String, generateID p q n = p ++ ":" ++ q ++ ":" ++ n) := by
  rcases mem_parseFile f fp pn mt c hc with ⟨fn, _, rfl⟩ | ⟨g, ts, _, hext⟩
  · exact ⟨rfl, rfl, rfl, fun _ _ _ => rfl⟩
  · obtain ⟨hid, hname, hproj, hfp⟩ :=
      extractType_fields g ts fp pn f.packageName mt c hext
    refine ⟨?_, hproj, hfp, fun _ _ _ => rfl⟩
    rw [hid, hname]; rfl

/-- A one-function file used to instantiate the identity claim. -/
def exFnF : GoFuncDecl :=
  { name := "Foo", recv := some "T", doc := none, body := none,
    src := "func (t T) Foo() {}", lineStart := 1, lineEnd := 1 }

def exFileFoo : GoFile :=
  { packageName := "m", imports := [], decls := [.funcDecl exFnF] }

/-- Witness for C1 at a concrete file: the method `Foo` of `proj`,
parsed from `file.go`, gets id `"proj:file.go:Foo"`. -/
theorem chunk_id_is_project_file_name_witness :
    ∃ c ∈ parseFile exFileFoo "file.go" "proj" 0,
      c.ID = "proj" ++ ":" ++ "file.go" ++ ":" ++ c.Name ∧
        c.Project = "proj" ∧ c.FilePath = "file.go" := by
  refine ⟨extractFunction exFnF "file.go" "proj" "m" [] 0, by decide, ?_⟩
  have h := chunk_id_is_project_file_name exFileFoo "file.go" "proj" 0
    (extractFunction exFnF "file.go" "proj" "m" [] 0) (by decide)
  exact ⟨h.1, h.2.1, h.2.2.1⟩

/-! ## C5: zero chunks is an error -/

/-- C5: when extraction succeeds but yields zero chunks, `IndexProject`
reports zero chunks together with the empty-index error instead of
succeeding. -/
theorem indexProject_zero_chunks_fails (env : RunEnv)
    (h : env.parseResult = .ok []) :
    IndexProject env = (0, some "no code chunks found in project") := by
  simp [IndexProject, h]

/-- An environment whose extraction finds nothing. -/
def envEmptyParse : RunEnv :=
  { parseResult := .ok [], embed := fun _ => .ok (), insert := fun _ => .ok () }

theorem indexProject_zero_chunks_fails_witness :
    IndexProject envEmptyParse = (0, some "no code chunks found in project") :=
  indexProject_zero_chunks_fails envEmptyParse rfl

/-! ## C2: staleness query -/

/-- C2: `GetStaleFiles` returns exactly the project's rows whose
`last_indexed_at` is `NULL` or whose `last_modified_at` is strictly
greater than their (non-`NULL`) `last_indexed_at`; in particular a row
with both timestamps set and `last_modified_at <= last_indexed_at` is
never returned. -/
theorem getStaleFiles_mem (db : MetaDB) (pid : Int) (r : FileRow) :
    r ∈ getStaleFiles db pid ↔
      r ∈ db.files ∧ r.projectId = pid ∧
        (r.lastIndexedAt = none ∨
          ∃ m i, r.lastModifiedAt = some m ∧ r.lastIndexedAt = some i ∧ i < m) := by
  unfold getStaleFiles
  rw [List.mem_mergeSort, List.mem_filter]
  rcases hm : r.lastModifiedAt with _ | m <;> rcases hi : r.lastIndexedAt with _ | i <;>
    simp [isStaleRow, hm, hi, and_assoc]

/-! ## C4: failed runs commit no project metadata -/

theorem cleanMeta_projects_subset (db : MetaDB) (name : String) (p : ProjectRow)
    (h : p ∈ (cleanMeta db name).projects) : p ∈ db.projects := by
  unfold cleanMeta at h
  rcases hd : deleteProject db name with e | d <;> rw [hd] at h
  · exact h
  · unfold deleteProject at hd
    split at hd
    · injection hd with hd
      subst hd
      exact List.mem_of_mem_filter h
    · cases hd

theorem indexProject_snd_none (env : RunEnv)
    (h : (IndexProject env).2 = none) :
    ∃ chunks, env.parseResult = .ok chunks ∧ chunks ≠ [] ∧
      env.embed (chunks.map ToText) = .ok () ∧ env.insert chunks = .ok () := by
  unfold IndexProject at h
  rcases hp : env.parseResult with e | chunks <;> rw [hp] at h
  · simp at h
  · simp only at h
    split at h
    · simp at h
    · rcases he : generateEmbeddings env chunks with e | u <;> rw [he] at h
      · simp at h
      · rcases hi : env.insert chunks with e | u2 <;> rw [hi] at h
        · simp at h
        · refine ⟨chunks, rfl, ?_, ?_, ?_⟩
          · rintro rfl; simp_all
          · cases u; exact he
          · cases u2; exact hi

/-- C4: if extraction, embedding, or the vector-store write fails, the
run returns an error and no project row is created or updated (without
`--clean` the metadata is exactly the input state; with `--clean` the
only difference is the up-front deletion, so every surviving project row
was already present); conversely a run that returns no error had a
successful vector-store write of the parsed chunks. -/
theorem indexCmd_failure_no_metadata_write (env : RunEnv) (args : IndexArgs)
    (now : Int) (db : MetaDB) :
    (∀ e, (IndexProject env).2 = some e →
      (indexCmd env args now db).2 = some ("indexing failed: " ++ e) ∧
        (∀ p ∈ (indexCmd env args now db).1.projects, p ∈ db.projects) ∧
        (args.clean = false →
          indexCmd env args now db = (db, some ("indexing failed: " ++ e)))) ∧
    ((indexCmd env args now db).2 = none →
      ∃ chunks, env.parseResult = .ok chunks ∧ chunks ≠ [] ∧
        env.insert chunks = .ok ()) := by
  constructor
  · intro e hfail
    rcases hip : IndexProject env with ⟨n, err⟩
    rw [hip] at hfail
    simp only at hfail
    subst hfail
    refine ⟨by simp [indexCmd, hip], ?_, ?_⟩
    · intro p hp
      simp only [indexCmd, hip] at hp
      rcases hc : args.clean with _ | _ <;> rw [hc] at hp <;> simp at hp
      · exact hp
      · exact cleanMeta_projects_subset db args.projectName p hp
    · intro hc; simp [indexCmd, hip, hc]
  · intro hnone
    have hip : (IndexProject env).2 = none := by
      rcases hip : IndexProject env with ⟨n, err⟩
      rcases err with _ | e
      · rfl
      · exact absurd hnone (by simp [indexCmd, hip])
    obtain ⟨chunks, hp, hne, _, hi⟩ := indexProject_snd_none env hip
    exact ⟨chunks, hp, hne, hi⟩

/-- An environment whose extraction fails, and a one-project metadata
state, instantiating the failure claim. -/
def envParseErr : RunEnv :=
  { parseResult := .error "boom", embed := fun _ => .ok (),
    insert := fun _ => .ok () }

def projRowP : ProjectRow :=
  { id := 1, name := "p", path := "/p", language := "go", description := "",
    groupId := none, chunkCount := 3, lastIndexedAt := some 5,
    lastModifiedAt := none, createdAt := 1, updatedAt := 1 }

def dbOneProject : MetaDB :=
  { groups := [], projects := [projRowP], files := [],
    nextGroupId := 1, nextProjectId := 2, nextFileId := 1 }

def argsPlain : IndexArgs :=
  { projectPath := "/p", projectName := "p", groupName := "",
    description := "", clean := false }

theorem indexCmd_failure_no_metadata_write_witness :
    indexCmd envParseErr argsPlain 9 dbOneProject =
      (dbOneProject, some "indexing failed: failed to parse project: boom") :=
  ((indexCmd_failure_no_metadata_write envParseErr argsPlain 9 dbOneProject).1
    "failed to parse project: boom" rfl).2.2 rfl

/-! ## C10: deleting a group keeps its projects -/

/-- C10: `DeleteGroup` on a present name removes only the group row —
the file table is untouched, the project count is unchanged, every
member project survives with its group reference nulled and every
non-member project survives unchanged — and on an absent name it fails
with the not-found error. -/
theorem deleteGroup_keeps_projects (db : MetaDB) (name : String) :
    (db.groups.any (fun g => g.name == name) = false →
      deleteGroup db name = .error .notFound) ∧
    (∀ db', deleteGroup db name = .ok db' →
      db'.files = db.files ∧
      db'.groups = db.groups.filter (fun g => !(g.name == name)) ∧
      db'.projects.length = db.projects.length ∧
      (∀ p ∈ db.projects, groupRefDeleted db name p = true →
        { p with groupId := none } ∈ db'.projects) ∧
      (∀ p ∈ db.projects, groupRefDeleted db name p = false →
        p ∈ db'.projects)) := by
  constructor
  · intro h; simp [deleteGroup, h]
  · intro db' h
    unfold deleteGroup at h
    split at h
    · injection h with h
      subst h
      refine ⟨rfl, rfl, by simp, ?_, ?_⟩
      · intro p hp href
        exact List.mem_map.2 ⟨p, hp, by simp [href]⟩
      · intro p hp href
        exact List.mem_map.2 ⟨p, hp, by simp [href]⟩
    · cases h

def grpW : GroupRow :=
  { id := 1, name := "g", description := "", createdAt := 0, updatedAt := 0 }

def projMemberW : ProjectRow :=
  { id := 1, name := "a", path := "/a", language := "go", description := "",
    groupId := some 1, chunkCount := 2, lastIndexedAt := some 3,
    lastModifiedAt := none, createdAt := 0, updatedAt := 0 }

def projLoneW : ProjectRow :=
  { id := 2, name := "b", path := "/b", language := "go", description := "",
    groupId := none, chunkCount := 1, lastIndexedAt := none,
    lastModifiedAt := none, createdAt := 0, updatedAt := 0 }

def fileRowW : FileRow :=
  { id := 1, projectId := 1, filePath := "x.go", lastModifiedAt := some 2,
    lastIndexedAt := some 1, chunkCount := 4, fileHash := "h" }

def dbGroupW : MetaDB :=
  { groups := [grpW], projects := [projMemberW, projLoneW], files := [fileRowW],
    nextGroupId := 2, nextProjectId := 3, nextFileId := 2 }

theorem deleteGroup_keeps_projects_witness :
    ∃ db', deleteGroup dbGroupW "g" = .ok db' ∧ db'.files = dbGroupW.files ∧
      { projMemberW with groupId := none } ∈ db'.projects ∧
      projLoneW ∈ db'.projects := by
  have h := (deleteGroup_keeps_projects dbGroupW "g").2
  exact ⟨_, rfl, (h _ rfl).1,
    (h _ rfl).2.2.2.1 projMemberW (by decide) (by decide),
    (h _ rfl).2.2.2.2 projLoneW (by decide) (by decide)⟩

/-! ## C7: file upsert -/

/-- The `UNIQUE(project_id, file_path)` invariant of the files table. -/
def filesWellFormed (db : MetaDB) : Prop :=
  db.files.Pairwise (fun a b => ¬(a.projectId = b.projectId ∧ a.filePath = b.filePath))

theorem fileKeyMatches_updRow (f g : FileArg) (r : FileRow) :
    fileKeyMatches g (updRow f r) = fileKeyMatches g r := rfl

theorem countP_upd_map (f g : FileArg) (l : List FileRow) :
    (l.map (fun r => if fileKeyMatches g r then updRow g r else r)).countP
        (fileKeyMatches f) = l.countP (fileKeyMatches f) := by
  induction l with
  | nil => rfl
  | cons a t ih =>
    by_cases h : fileKeyMatches g a = true <;>
      simp [h, List.countP_cons, ih, fileKeyMatches_updRow]

theorem any_upd_map (f g : FileArg) (l : List FileRow) :
    (l.map (fun r => if fileKeyMatches g r then updRow g r else r)).any
        (fileKeyMatches f) = l.any (fileKeyMatches f) := by
  induction l with
  | nil => rfl
  | cons a t ih =>
    by_cases h : fileKeyMatches g a = true <;>
      simp [h, List.any_cons, ih, fileKeyMatches_updRow]

theorem upd_map_values (f : FileArg) (l : List FileRow) (r : FileRow)
    (hr : r ∈ l.map (fun x => if fileKeyMatches f x then updRow f x else x))
    (hm : fileKeyMatches f r = true) :
    r.lastModifiedAt = f.lastModifiedAt ∧ r.lastIndexedAt = f.lastIndexedAt ∧
      r.chunkCount = f.chunkCount ∧ r.fileHash = f.fileHash := by
  obtain ⟨x, hx, rfl⟩ := List.mem_map.1 hr
  by_cases h : fileKeyMatches f x = true
  · simp [h, updRow]
  · rw [if_neg h] at hm ⊢
    exact absurd hm h

theorem countP_le_one_of_wf (f : FileArg) (l : List FileRow)
    (h : l.Pairwise (fun a b => ¬(a.projectId = b.projectId ∧ a.filePath = b.filePath))) :
    l.countP (fileKeyMatches f) ≤ 1 := by
  induction l with
  | nil => simp
  | cons a t ih =>
    rcases List.pairwise_cons.1 h with ⟨ha, ht⟩
    by_cases hm : fileKeyMatches f a = true
    · rw [List.countP_cons_of_pos _ _ hm]
      have hz : t.countP (fileKeyMatches f) = 0 := by
        rw [List.countP_eq_zero]
        intro b hb hbm
        simp only [fileKeyMatches, Bool.and_eq_true, beq_iff_eq] at hm hbm
        exact ha b hb ⟨hm.1.trans hbm.1.symm, hm.2.trans hbm.2.symm⟩
      omega
    · rw [List.countP_cons_of_neg _ _ hm]
      exact ih ht

/-- C7: on a well-formed files table and an existing project, upserting
the same `(project_id, file_path)` key twice leaves exactly one row for
that key, carrying the second call's hash, timestamps and chunk count;
and `UpsertFile` can never fail with the not-found error. -/
theorem upsertFile_twice_single_row (db : MetaDB) (f1 f2 : FileArg)
    (hwf : filesWellFormed db)
    (hproj : db.projects.any (fun p => p.id == f1.projectId) = true)
    (hpid : f2.projectId = f1.projectId) (hpath : f2.filePath = f1.filePath) :
    (∃ db1 db2, upsertFile db f1 = .ok db1 ∧ upsertFile db1 f2 = .ok db2 ∧
      db2.files.countP (fileKeyMatches f2) = 1 ∧
      (∀ r ∈ db2.files, fileKeyMatches f2 r = true →
        r.lastModifiedAt = f2.lastModifiedAt ∧ r.lastIndexedAt = f2.lastIndexedAt ∧
          r.chunkCount = f2.chunkCount ∧ r.fileHash = f2.fileHash)) ∧
    (∀ g : FileArg, upsertFile db g ≠ .error .notFound) := by
  have hkey : fileKeyMatches f2 = fileKeyMatches f1 := by
    funext r; simp [fileKeyMatches, hpid, hpath]
  constructor
  · by_cases h1 : db.files.any (fileKeyMatches f1) = true
    · have e1 : upsertFile db f1 = .ok (updFiles f1 db) := by
        rw [upsertFile, if_pos h1]
      have hany2 : (updFiles f1 db).files.any (fileKeyMatches f2) = true := by
        show (db.files.map _).any _ = true
        rw [any_upd_map, hkey]; exact h1
      have e2 : upsertFile (updFiles f1 db) f2 = .ok (updFiles f2 (updFiles f1 db)) := by
        rw [upsertFile, if_pos hany2]
      refine ⟨_, _, e1, e2, ?_, ?_⟩
      · show ((db.files.map _).map _).countP _ = 1
        rw [countP_upd_map, countP_upd_map, hkey]
        have hle := countP_le_one_of_wf f1 db.files hwf
        have hpos : 0 < db.files.countP (fileKeyMatches f1) := by
          rw [List.countP_pos_iff]
          exact List.any_eq_true.1 h1
        omega
      · intro r hr hm
        exact upd_map_values f2 _ r hr hm
    · have h1' : db.files.any (fileKeyMatches f1) = false := by
        simpa using h1
      have e1 : upsertFile db f1 = .ok (insFile f1 db) := by
        rw [upsertFile, if_neg (by simp [h1']), if_pos hproj]
      have hany2 : (insFile f1 db).files.any (fileKeyMatches f2) = true := by
        show (db.files ++ _).any _ = true
        rw [hkey]
        simp [List.any_append, fileKeyMatches]
      have e2 : upsertFile (insFile f1 db) f2 = .ok (updFiles f2 (insFile f1 db)) := by
        rw [upsertFile, if_pos hany2]
      refine ⟨_, _, e1, e2, ?_, ?_⟩
      · show ((db.files ++ _).map _).countP _ = 1
        rw [countP_upd_map, hkey, List.countP_append]
        have hz : db.files.countP (fileKeyMatches f1) = 0 := by
          rw [List.countP_eq_zero]
          intro b hb hbm
          exact absurd (List.any_eq_true.2 ⟨b, hb, hbm⟩) (by simp [h1'])
        rw [hz]
        simp [fileKeyMatches]
      · intro r hr hm
        exact upd_map_values f2 _ r hr hm
  · intro g h
    unfold upsertFile at h
    split at h
    · cases h
    · split at h
      · cases h
      · injection h with h
        cases h

def dbNoFilesW : MetaDB :=
  { groups := [], projects := [projRowP], files := [],
    nextGroupId := 1, nextProjectId := 2, nextFileId := 1 }

def fArgOldW : FileArg :=
  { projectId := 1, filePath := "x.go", lastModifiedAt := some 1,
    lastIndexedAt := some 1, chunkCount := 2, fileHash := "old" }

def fArgNewW : FileArg :=
  { projectId := 1, filePath := "x.go", lastModifiedAt := some 5,
    lastIndexedAt := some 6, chunkCount := 7, fileHash := "new" }

theorem upsertFile_twice_single_row_witness :
    ∃ db1 db2, upsertFile dbNoFilesW fArgOldW = .ok db1 ∧
      upsertFile db1 fArgNewW = .ok db2 ∧
      db2.files.countP (fileKeyMatches fArgNewW) = 1 ∧
      (∀ r ∈ db2.files, fileKeyMatches fArgNewW r = true →
        r.lastModifiedAt = fArgNewW.lastModifiedAt ∧
          r.lastIndexedAt = fArgNewW.lastIndexedAt ∧
          r.chunkCount = fArgNewW.chunkCount ∧ r.fileHash = fArgNewW.fileHash) :=
  (upsertFile_twice_single_row dbNoFilesW fArgOldW fArgNewW
    (List.Pairwise.nil) (by decide) rfl rfl).1

/-! ## C6: per-file parse failures are tolerated, traversal errors are
fatal -/

theorem walkList_append (path pn : String) (a b : List FSEntry)
    (cs1 cs2 : List CodeChunk) (ws1 ws2 : List String)
    (ha : walkList path pn a = .ok (cs1, ws1))
    (hb : walkList path pn b = .ok (cs2, ws2)) :
    walkList path pn (a ++ b) = .ok (cs1 ++ cs2, ws1 ++ ws2) := by
  induction a generalizing cs1 ws1 with
  | nil =>
    rw [walkList] at ha
    injection ha with ha
    obtain ⟨rfl, rfl⟩ := Prod.mk.injEq .. ▸ ha
    simpa using hb
  | cons e rest ih =>
    rw [walkList] at ha
    rw [List.cons_append, walkList]
    rcases he : walkEntry (pathJoin path e.name) pn e with er | ⟨ce, we⟩ <;>
      rw [he] at ha
    · cases ha
    · rcases hr : walkList path pn rest with er | ⟨cr, wr⟩ <;> rw [hr] at ha
      · cases ha
      · injection ha with ha
        have h2 := Prod.mk.injEq .. ▸ ha
        obtain ⟨rfl, rfl⟩ := h2
        rw [ih cr wr hr]
        simp

/-- C6: (a) inserting a `.go` file that fails to parse anywhere in a
directory's entry list leaves the other entries' chunks untouched and
only adds a warning for that path; (b) an unreadable directory that is
not skipped aborts the walk with an error; (c) `Parse` turns a walk
error into the fatal `failed to walk project directory` error. -/
theorem parse_tolerates_file_failures (pn : String) :
    (∀ path nm es1 es2 cs1 ws1 cs2 ws2,
      strEndsWith (pathJoin path nm) ".go" = true →
      walkList path pn es1 = .ok (cs1, ws1) →
      walkList path pn es2 = .ok (cs2, ws2) →
      walkList path pn (es1 ++ FSEntry.file nm none :: es2) =
        .ok (cs1 ++ cs2, ws1 ++ pathJoin path nm :: ws2)) ∧
    (∀ path nm entries, skipDirName nm = false →
      walkEntry path pn (FSEntry.dir nm false entries) = .error path) ∧
    (∀ parent root er, walkEntry (pathJoin parent root.name) pn root = .error er →
      ParseGo parent pn root = .error ("failed to walk project directory: " ++ er)) := by
  refine ⟨?_, ?_, ?_⟩
  · intro path nm es1 es2 cs1 ws1 cs2 ws2 hgo h1 h2
    have hfile : walkEntry (pathJoin path nm) pn (FSEntry.file nm none) =
        .ok ([], [pathJoin path nm]) := by
      rw [walkEntry, if_pos hgo]
    have hcons : walkList path pn (FSEntry.file nm none :: es2) =
        .ok (cs2, pathJoin path nm :: ws2) := by
      rw [walkList]
      simp only [FSEntry.name]
      rw [hfile, h2]
      rfl
    have h := walkList_append path pn es1 (FSEntry.file nm none :: es2)
      cs1 cs2 ws1 (pathJoin path nm :: ws2) h1 hcons
    exact h
  · intro path nm entries _hskip
    rw [walkEntry, if_pos (by decide)]
  · intro parent root er h
    unfold ParseGo
    rw [h]

/-- A tree with one parseable and one unparseable source file. -/
def goodFileEntry : FSEntry := .file "good.go" (some (exFileFoo, 0))

def badFileEntry : FSEntry := .file "bad.go" none

theorem parse_tolerates_file_failures_witness :
    walkList "r" "p" [goodFileEntry, badFileEntry] =
      .ok (parseFile exFileFoo (pathJoin "r" "good.go") "p" 0,
           [pathJoin "r" "bad.go"]) ∧
    ParseGo "base" "p" (FSEntry.dir "proj" false [goodFileEntry]) =
      .error ("failed to walk project directory: " ++ pathJoin "base" "proj") := by
  have h := parse_tolerates_file_failures "p"
  constructor
  · have h1 := h.1 "r" "bad.go" [goodFileEntry] []
      (parseFile exFileFoo (pathJoin "r" "good.go") "p" 0) [] [] []
      rfl rfl rfl
    simpa using h1
  · exact h.2.2 "base" (FSEntry.dir "proj" false [goodFileEntry])
      (pathJoin "base" "proj") (h.2.1 (pathJoin "base" "proj") "proj" [goodFileEntry] rfl)

/-! ## C8: traversal policy

Spec-side description (following the spec's words, for comparison with
the embedded walk): the traversal reaches exactly the `.go` files lying
under directories that are not skipped, where a directory is skipped
when its name is `vendor`, `node_modules`, or hidden — and this test is
applied to every directory the walk visits, the root included. -/

mutual

/-- No directory the walk visits fails to read: a visited directory must
itself be readable (an unreadable one aborts the walk whatever its
name), and unless the skip test stops the descent its entries are
visited in turn.  Below a readable skip-named directory nothing is
visited, so readability there is irrelevant. -/
def allReadableEntry : FSEntry → Bool
  | .file _ _ => true
  | .dir nm r entries => r && (skipDirName nm || allReadableList entries)

def allReadableList : List FSEntry → Bool
  | [] => true
  | e :: rest => allReadableEntry e && allReadableList rest

end

mutual

/-- The `.go` files the traversal policy reaches under the entry at
`path`, with their parse outcomes, in traversal order. -/
def goFilesUnder (path : String) (e : FSEntry) :
    List (String × Option (GoFile × Int)) :=
  match e with
  | .file _ parsed => if strEndsWith path ".go" then [(path, parsed)] else []
  | .dir nm _ entries =>
    if skipDirName nm then [] else goFilesUnderList path entries

def goFilesUnderList (path : String) (es : List FSEntry) :
    List (String × Option (GoFile × Int)) :=
  match es with
  | [] => []
  | e :: rest => goFilesUnder (pathJoin path e.name) e ++ goFilesUnderList path rest

end

/-- The chunks of the reached files that parse. -/
def chunksOfGoFiles (pn : String) (l : List (String × Option (GoFile × Int))) :
    List CodeChunk :=
  l.flatMap (fun pr => match pr.2 with
    | some (gf, mt) => parseFile gf pr.1 pn mt
    | none => [])

/-- The warned paths of the reached files that fail to parse. -/
def warnsOfGoFiles (l : List (String × Option (GoFile × Int))) : List String :=
  l.filterMap (fun pr => match pr.2 with
    | some _ => none
    | none => some pr.1)

mutual

theorem walkEntry_eq_goFiles (path pn : String) (e : FSEntry)
    (h : allReadableEntry e = true) :
    walkEntry path pn e =
      .ok (chunksOfGoFiles pn (goFilesUnder path e),
           warnsOfGoFiles (goFilesUnder path e)) := by
  cases e with
  | file nm parsed =>
    rcases parsed with _ | ⟨gf, mt⟩ <;>
      by_cases hgo : strEndsWith path ".go" = true <;>
        simp [walkEntry, goFilesUnder, chunksOfGoFiles, warnsOfGoFiles, hgo]
  | dir nm r entries =>
    rw [allReadableEntry] at h
    simp only [Bool.and_eq_true, Bool.or_eq_true] at h
    obtain ⟨hr, hrest⟩ := h
    subst hr
    by_cases hs : skipDirName nm = true
    · simp [walkEntry, goFilesUnder, chunksOfGoFiles, warnsOfGoFiles, hs]
    · rcases hrest with hs' | hl
      · exact absurd hs' hs
      · rw [walkEntry, goFilesUnder, if_neg hs, if_neg hs]
        simpa using walkList_eq_goFiles path pn entries hl

theorem walkList_eq_goFiles (path pn : String) (es : List FSEntry)
    (h : allReadableList es = true) :
    walkList path pn es =
      .ok (chunksOfGoFiles pn (goFilesUnderList path es),
           warnsOfGoFiles (goFilesUnderList path es)) := by
  cases es with
  | nil => simp [walkList, goFilesUnderList, chunksOfGoFiles, warnsOfGoFiles]
  | cons e rest =>
    rw [allReadableList] at h
    simp only [Bool.and_eq_true] at h
    obtain ⟨he, hrest⟩ := h
    rw [walkList, walkEntry_eq_goFiles (pathJoin path e.name) pn e he,
      walkList_eq_goFiles path pn rest hrest]
    simp [goFilesUnderList, chunksOfGoFiles, warnsOfGoFiles]

end

/-- C8 (amended): on a tree whose visited directories all read
successfully, the walk reaches exactly the `.go` files below
non-skipped directories — the skip test (`vendor`, `node_modules`,
hidden names other than `.` and `..`) being applied to every readable
directory the walk visits, the root included — parsing the ones that
parse and warning on the rest; in particular a readable root directory
whose own name matches the skip test makes the whole parse return no
chunks at all.  (An unreadable directory, skip-named or not, instead
aborts the walk; that failure path is the subject of C6.) -/
theorem parse_traversal_policy (parentDir pn : String) (root : FSEntry) :
    (allReadableEntry root = true →
      ParseGo parentDir pn root =
        .ok (chunksOfGoFiles pn (goFilesUnder (pathJoin parentDir root.name) root),
             warnsOfGoFiles (goFilesUnder (pathJoin parentDir root.name) root))) ∧
    (∀ nm entries, skipDirName nm = true →
      ParseGo parentDir pn (FSEntry.dir nm true entries) = .ok ([], [])) := by
  constructor
  · intro h
    unfold ParseGo
    rw [walkEntry_eq_goFiles _ _ _ h]
  · intro nm entries hskip
    simp [ParseGo, walkEntry, hskip]

/-- A project tree whose root is a hidden directory, and the same tree
under a plain name. -/
def hiddenRootX : FSEntry := .dir ".app" true [.file "main.go" (some (exFileFoo, 0))]

def plainRootX : FSEntry := .dir "app" true [.file "main.go" (some (exFileFoo, 0))]

/-- Counterexample to C8 as stated: the walk callback applies the
hidden-directory test to the root itself, so a project rooted at a
directory named `.app` is skipped entirely (zero chunks), while the
identical tree rooted at `app` parses its source file. -/
theorem parse_skips_hidden_root :
    ParseGo "home" "p" hiddenRootX = .ok ([], []) ∧
    ParseGo "home" "p" plainRootX =
      .ok (parseFile exFileFoo (pathJoin (pathJoin "home" "app") "main.go") "p" 0,
           []) := by
  constructor
  · rfl
  · rfl

theorem parse_traversal_policy_witness :
    ParseGo "home" "p" plainRootX =
      .ok (chunksOfGoFiles "p" (goFilesUnder (pathJoin "home" "app") plainRootX),
           warnsOfGoFiles (goFilesUnder (pathJoin "home" "app") plainRootX)) ∧
    ParseGo "home" "p" (FSEntry.dir "vendor" true [.file "main.go" (some (exFileFoo, 0))]) =
      .ok ([], []) := by
  have h := parse_traversal_policy "home" "p" plainRootX
  exact ⟨h.1 rfl,
    (parse_traversal_policy "home" "p"
        (FSEntry.dir "vendor" true [.file "main.go" (some (exFileFoo, 0))])).2
      "vendor" [.file "main.go" (some (exFileFoo, 0))] rfl⟩

/-! ## C3: which declarations become chunks

Spec-side signature (name, kind, receiver) of the chunks a declaration
should produce, following the extraction rule as amended: one
function/method chunk per function declaration (method exactly when a
receiver is present, which is recorded), one struct/interface chunk per
matching type spec of a type declaration — whether the type declaration
is top-level or nested inside a function body — and nothing else. -/

def genDeclSignature (g : GoGenDecl) : List (String × String × String) :=
  if g.tok == .typeTok then
    g.specs.filterMap (fun ts =>
      match ts.kind with
      | .structKind => some (ts.name, chunkTypeStruct, "")
      | .interfaceKind => some (ts.name, chunkTypeInterface, "")
      | .otherKind => none)
  else []

def bodySignature (b : Option (List BodyNode)) : List (String × String × String) :=
  (match b with | some l => l | none => []).flatMap (fun n =>
    match n with
    | .typeDecl g => genDeclSignature g
    | _ => [])

def declSignature (d : GoDecl) : List (String × String × String) :=
  match d with
  | .funcDecl fn =>
    (fn.name, (if fn.recv.isSome then chunkTypeMethod else chunkTypeFunction),
      fn.recv.getD "") :: bodySignature fn.body
  | .genDecl g => genDeclSignature g

theorem specs_filterMap_signature (g : GoGenDecl) (fp pn pkg : String) (mt : Int)
    (l : List GoTypeSpec) :
    (l.filterMap (fun ts => extractType g ts fp pn pkg mt)).map
        (fun c => (c.Name, c.ChunkType, c.Receiver)) =
      l.filterMap (fun ts =>
        match ts.kind with
        | .structKind => some (ts.name, chunkTypeStruct, "")
        | .interfaceKind => some (ts.name, chunkTypeInterface, "")
        | .otherKind => none) := by
  induction l with
  | nil => rfl
  | cons ts rest ih =>
    obtain ⟨nm, k, ls, le⟩ := ts
    simp only [extractType] at ih ⊢
    cases k <;> simp [List.filterMap_cons, ih]

theorem typeChunks_signature (g : GoGenDecl) (fp pn pkg : String) (mt : Int) :
    (typeChunksOfGenDecl g fp pn pkg mt).map
        (fun c => (c.Name, c.ChunkType, c.Receiver)) = genDeclSignature g := by
  unfold typeChunksOfGenDecl genDeclSignature
  split
  · exact specs_filterMap_signature g fp pn pkg mt g.specs
  · rfl

theorem inspectDecl_signature (d : GoDecl) (fp pn pkg : String)
    (imports : List String) (mt : Int) :
    (inspectDecl d fp pn pkg imports mt).map
        (fun c => (c.Name, c.ChunkType, c.Receiver)) = declSignature d := by
  cases d with
  | funcDecl fn =>
    simp only [inspectDecl, declSignature, List.map_cons]
    congr 1
    · rcases hr : fn.recv with _ | r <;> simp [extractFunction, hr]
    · rcases fn.body with _ | b
      · simp [bodySignature]
      · simp only [bodySignature]
        induction b with
        | nil => simp
        | cons n rest ih =>
          simp only [List.flatMap_cons, List.map_append, ih]
          congr 1
          cases n with
          | typeDecl g => exact typeChunks_signature g fp pn pkg mt
          | callSel s a => rfl
          | callOther a => rfl
          | otherNode => rfl
  | genDecl g => exact typeChunks_signature g fp pn pkg mt

/-- C3 (amended): projected to (name, kind, receiver), the chunks of one
parsed file are exactly: per top-level function declaration, one
function/method chunk (method with its receiver exactly when a receiver
is present) followed by one struct/interface chunk per type spec of any
type declaration nested in its body; and per top-level type declaration,
one struct/interface chunk per matching spec; nothing else (other
top-level declarations, and specs that are neither struct nor interface,
produce no chunk). -/
theorem parseFile_chunk_kinds (f : GoFile) (fp pn : String) (mt : Int) :
    (parseFile f fp pn mt).map (fun c => (c.Name, c.ChunkType, c.Receiver)) =
      f.decls.flatMap declSignature := by
  show (f.decls.flatMap _).map _ = f.decls.flatMap declSignature
  induction f.decls with
  | nil => rfl
  | cons d rest ih =>
    simp only [List.flatMap_cons, List.map_append, ih]
    congr 1
    exact inspectDecl_signature d fp pn f.packageName (extractImports f) mt

/-- A file whose single top-level declaration is a function `F` with a
struct type `T` declared inside its body. -/
def nestedTypeDecl : GoGenDecl :=
  { tok := .typeTok, doc := none,
    specs := [{ name := "T", kind := .structKind, lineStart := 2, lineEnd := 2 }],
    src := "type T struct{}" }

def fnWithNestedType : GoFuncDecl :=
  { name := "F", recv := none, doc := none,
    body := some [.typeDecl nestedTypeDecl],
    src := "func F() { type T struct{} }", lineStart := 1, lineEnd := 3 }

def fileNestedType : GoFile :=
  { packageName := "m", imports := [], decls := [.funcDecl fnWithNestedType] }

/-- Counterexample to C3 as stated: `ast.Inspect` descends into function
bodies, so a struct type declared inside the body of the only top-level
declaration still yields a chunk — the file produces two chunks, not
one. -/
theorem parseFile_emits_nested_type_chunk :
    (parseFile fileNestedType "a.go" "p" 0).map (fun c => (c.Name, c.ChunkType)) =
      [("F", chunkTypeFunction), ("T", chunkTypeStruct)] ∧
    fileNestedType.decls = [.funcDecl fnWithNestedType] := by
  constructor
  · rfl
  · rfl

theorem parseFile_chunk_kinds_witness :
    (parseFile fileNestedType "a.go" "p" 0).map
        (fun c => (c.Name, c.ChunkType, c.Receiver)) =
      fileNestedType.decls.flatMap declSignature :=
  parseFile_chunk_kinds fileNestedType "a.go" "p" 0

/-! ## C9: the HTTP-verb heuristic

Spec-side record functions (following the amended wording): what one
body node contributes to the entry-point list and to the outbound-call
list. -/

/-- A call through a selector named by any of the fourteen verb tokens
with a string-literal first argument is recorded as
`"VERB trimmed-arg"` in the entry-point list. -/
def endpointRecordSpec (n : BodyNode) : Option String :=
  match n with
  | .callSel sel (.lit .stringLit v :: _) =>
    if isHTTPMethod sel then some (sel ++ " " ++ trimQuotes v) else none
  | _ => none

/-- A call through a selector named `Get`, `Post`, `Put`, `Delete` or
`Patch` (title case only) with a string-literal first argument is
recorded in the outbound-call list as the bare trimmed argument, with no
verb prefix. -/
def outboundRecordSpec (n : BodyNode) : Option String :=
  match n with
  | .callSel sel (.lit .stringLit v :: _) =>
    if sel == "Get" || sel == "Post" || sel == "Put" || sel == "Delete" || sel == "Patch"
    then some (trimQuotes v) else none
  | _ => none

theorem extractHTTPEndpoints_eq (b : List BodyNode) :
    extractHTTPEndpoints b = b.filterMap endpointRecordSpec := by
  induction b with
  | nil => rfl
  | cons n rest ih =>
    cases n with
    | callSel sel args =>
      rcases args with _ | ⟨a, args'⟩
      · simp [extractHTTPEndpoints, List.filterMap_cons, endpointRecordSpec, ih]
      · rcases a with ⟨k, v⟩ | _
        · cases k
          · by_cases h : isHTTPMethod sel = true <;>
              simp [extractHTTPEndpoints, List.filterMap_cons, endpointRecordSpec, h, ih]
          · simp [extractHTTPEndpoints, List.filterMap_cons, endpointRecordSpec, ih]
        · simp [extractHTTPEndpoints, List.filterMap_cons, endpointRecordSpec, ih]
    | callOther args =>
      simp [extractHTTPEndpoints, List.filterMap_cons, endpointRecordSpec, ih]
    | typeDecl d =>
      simp [extractHTTPEndpoints, List.filterMap_cons, endpointRecordSpec, ih]
    | otherNode =>
      simp [extractHTTPEndpoints, List.filterMap_cons, endpointRecordSpec, ih]

theorem extractHTTPCalls_eq (b : List BodyNode) :
    extractHTTPCalls b = b.filterMap outboundRecordSpec := by
  induction b with
  | nil => rfl
  | cons n rest ih =>
    cases n with
    | callSel sel args =>
      rcases args with _ | ⟨a, args'⟩
      · simp [extractHTTPCalls, List.filterMap_cons, outboundRecordSpec, ih]
      · rcases a with ⟨k, v⟩ | _
        · cases k
          · by_cases h : (sel == "Get" || sel == "Post" || sel == "Put" ||
                sel == "Delete" || sel == "Patch") = true <;>
              simp [extractHTTPCalls, List.filterMap_cons, outboundRecordSpec, h, ih]
          · simp [extractHTTPCalls, List.filterMap_cons, outboundRecordSpec, ih]
        · simp [extractHTTPCalls, List.filterMap_cons, outboundRecordSpec, ih]
    | callOther args =>
      simp [extractHTTPCalls, List.filterMap_cons, outboundRecordSpec, ih]
    | typeDecl d =>
      simp [extractHTTPCalls, List.filterMap_cons, outboundRecordSpec, ih]
    | otherNode =>
      simp [extractHTTPCalls, List.filterMap_cons, outboundRecordSpec, ih]

/-- C9 (amended): the entry-point list records every selector call whose
name is one of the fourteen verb tokens and whose first argument is a
string literal, as `"VERB trimmed-arg"`; the outbound-call list records
only the title-case `Get/Post/Put/Delete/Patch` calls, as the bare
trimmed argument without a verb; consequently every outbound-call match
also appears in the entry-point list with its verb prefixed — the two
lists overlap rather than partition the matches. -/
theorem http_detection_characterization (b : List BodyNode) :
    extractHTTPEndpoints b = b.filterMap endpointRecordSpec ∧
    extractHTTPCalls b = b.filterMap outboundRecordSpec ∧
    (∀ n u, outboundRecordSpec n = some u →
      ∃ v, isHTTPMethod v = true ∧
        endpointRecordSpec n = some (v ++ " " ++ u)) := by
  refine ⟨extractHTTPEndpoints_eq b, extractHTTPCalls_eq b, ?_⟩
  intro n u h
  cases n with
  | callSel sel args =>
    rcases args with _ | ⟨a, args'⟩
    · cases h
    · rcases a with ⟨k, v⟩ | _
      · cases k
        · rw [outboundRecordSpec] at h
          by_cases hc : (sel == "Get" || sel == "Post" || sel == "Put" ||
              sel == "Delete" || sel == "Patch") = true
          · rw [if_pos hc] at h
            injection h with h
            subst h
            have hm : isHTTPMethod sel = true := by
              simp only [Bool.or_eq_true, beq_iff_eq] at hc
              rcases hc with ((((rfl | rfl) | rfl) | rfl) | rfl) <;> rfl
            exact ⟨sel, hm, by rw [endpointRecordSpec, if_pos hm]⟩
          · rw [if_neg hc] at h; cases h
        · cases h
      · cases h
  | callOther args => cases h
  | typeDecl d => cases h
  | otherNode => cases h

/-- A body with the single call `x.Get("http://x")`. -/
def bodyGetCall : List BodyNode := [.callSel "Get" [.lit .stringLit "\"http://x\""]]

def fnGetCall : GoFuncDecl :=
  { name := "F", recv := none, doc := none, body := some bodyGetCall,
    src := "func F() \x7b x.Get(\"http://x\") \x7d", lineStart := 1, lineEnd := 1 }

/-- Counterexample to C9 as stated: the chunk for a function whose body
calls `x.Get("http://x")` records the outbound call as the bare string
`"http://x"`, which is not of the form `"VERB path-or-url"` for any
recognized verb (no entry of the outbound list carries a verb). -/
theorem httpCalls_lack_verb :
    (extractFunction fnGetCall "a.go" "p" "m" [] 0).HTTPCalls = ["http://x"] ∧
    ¬∃ v rest, isHTTPMethod v = true ∧ "http://x" = v ++ " " ++ rest := by
  constructor
  · rfl
  · rintro ⟨v, rest, hv, he⟩
    have hsp : ' ' ∈ "http://x".data := by
      rw [he, String.data_append, String.data_append]
      refine List.mem_append.2 (.inl (List.mem_append.2 (.inr ?_)))
      decide
    exact absurd hsp (by decide)

theorem http_detection_characterization_witness :
    extractHTTPCalls bodyGetCall = bodyGetCall.filterMap outboundRecordSpec ∧
    ∃ v, isHTTPMethod v = true ∧
      endpointRecordSpec (.callSel "Get" [.lit .stringLit "\"http://x\""]) =
        some (v ++ " " ++ "http://x") := by
  have h := http_detection_characterization bodyGetCall
  exact ⟨h.2.1,
    h.2.2 (.callSel "Get" [.lit .stringLit "\"http://x\""]) "http://x" rfl⟩

end VectCode
